import Mathlib

/-!
Shallow embedding of `CRD_SCRAPER/kmt_scraper.py` (class `KMTScraper`).

Python strings are modelled as `List Char`; Python `str.split(sep)` for the
one- and two-character separators used by the code is modelled by
`splitOnChar` and `splitOnGtGt`; `str.strip()` by `pyStrip`; the regex
`/start/(\d+)` search of `_find_next_page_url` by `searchStartNum`; and the
`scrape` driver loop by the fuel-indexed `scrapeLoop` (the fuel is
`max_pages - pages_scraped`, which the loop decrements every iteration).
Network fetching is an oracle `fetch : List Char → Option Document`, where a
`Document` carries the data the pure pipeline reads from a fetched page:
`data-reaction-smiles` attribute values, the inline-script regex matches
(regex scanning of raw HTML is abstracted as an oracle list, the code's
`">" in match` filter is kept), table cell texts (after
`get_text(strip=True)`), and anchors (`find_all("a", href=True)`).
Timestamps (`datetime.now().isoformat()`) are an oracle `tsOf`.
`time.sleep(random.uniform(*delay_range))` is recorded as an `Event.slept`
trace entry; its duration is irrelevant to the verified properties.
-/

/-- Prepends a character to the first field of a split result;
`consHead c [] = [[c]]` so that splitting never loses the current field. -/
def consHead (c : Char) : List (List Char) → List (List Char)
  | [] => [[c]]
  | f :: fs => (c :: f) :: fs

/-- Python `s.split(sep)` for a single-character separator `sep`:
splits at every occurrence, keeping empty fields. -/
def splitOnChar (sep : Char) : List Char → List (List Char)
  | [] => [[]]
  | c :: rest =>
    if c = sep then [] :: splitOnChar sep rest
    else consHead c (splitOnChar sep rest)

/-- Python `s.split(">>")`: splits at every non-overlapping occurrence of
the two-character separator `>>`, scanning left to right. -/
def splitOnGtGt : List Char → List (List Char)
  | [] => [[]]
  | [c] => [[c]]
  | c :: c2 :: rest =>
    if c = '>' ∧ c2 = '>' then [] :: splitOnGtGt rest
    else consHead c (splitOnGtGt (c2 :: rest))

/-- Python `s.strip()`: removes leading and trailing whitespace. -/
def pyStrip (l : List Char) : List Char :=
  ((l.dropWhile Char.isWhitespace).reverse.dropWhile Char.isWhitespace).reverse

/-- The list comprehension `[s.strip() for s in field.split(".") if s.strip()]`
from `_parse_smiles_string`: split a field on `.`, trim each component,
drop components that are empty after trimming. -/
def splitComponents (field : List Char) : List (List Char) :=
  ((splitOnChar '.' field).map pyStrip).filter (fun s => ¬ s.isEmpty)

/-- The structured result of `_parse_smiles_string` (its returned dict). -/
structure ParsedReaction where
  reactants : List (List Char)
  reagents : List (List Char)
  products : List (List Char)
deriving DecidableEq, Repr

/-- The `parts` computation of `_parse_smiles_string`:
`parts = smiles.split(">")`; `if len(parts) < 3:` retry with
`smiles.split(">>")`, accepting only `len == 2` and padding the middle
field, otherwise `return None`. -/
def parseSmilesParts (smiles : List Char) : Option (List (List Char)) :=
  let parts := splitOnChar '>' smiles
  if parts.length < 3 then
    match splitOnGtGt smiles with
    | [p0, p1] => some [p0, [], p1]
    | _ => none
  else some parts

/-- Model of `KMTScraper._parse_smiles_string`: the reactant/reagent/product fields are
`parts[0]`, `parts[1]` (guarded by `len(parts) > 1`), `parts[2]` (guarded by
`len(parts) > 2`), each run through the strip-split-filter comprehension. -/
def parse_smiles_string (smiles : List Char) : Option ParsedReaction :=
  match parseSmilesParts smiles with
  | none => none
  | some parts =>
    some { reactants := splitComponents (parts.getD 0 [])
         , reagents := if 1 < parts.length then splitComponents (parts.getD 1 []) else []
         , products := if 2 < parts.length then splitComponents (parts.getD 2 []) else [] }

/-- Definition following the specification's words for claim C1 only:
Python `s.split(">", maxsplit=2)` — at most two splits, the remainder of the
string (further `>` included) stays in the third field. Used solely to
compare the spec's claimed splitting against the code's `parse_smiles_string`. -/
def split_gt_maxsplit2 (s : List Char) : List (List Char) :=
  match splitOnChar '>' s with
  | p0 :: p1 :: p2 :: rest => [p0, p1, List.intercalate ['>'] (p2 :: rest)]
  | ps => ps

/-- An anchor element as seen by `find_all("a", href=True)`: its
`get_text(strip=True)` text and its `href` attribute value. -/
structure Anchor where
  text : List Char
  href : List Char
deriving DecidableEq, Repr

/-- A table row: the `get_text(strip=True)` texts of its `td`/`th` cells. -/
structure TableRow where
  cells : List (List Char)
deriving DecidableEq, Repr

/-- A table: its rows (`find_all("tr")`). -/
structure HtmlTable where
  rows : List TableRow
deriving DecidableEq, Repr

/-- The fetched-page data read by the pure pipeline (see module docstring). -/
structure Document where
  attrSmiles : List (List Char)
  scriptMatches : List (List Char)
  tables : List HtmlTable
  anchors : List Anchor
deriving DecidableEq, Repr

/-- The dataclass `ReactionData` of the source. -/
structure ReactionData where
  reaction_smiles : List Char
  reactant_smiles : List (List Char)
  reagent_smiles : List (List Char)
  product_smiles : List (List Char)
  source_url : List Char
  scraped_at : List Char
deriving DecidableEq, Repr

/-- Model of `KMTScraper.BASE_URL`. -/
def baseUrlChars : List Char := "https://kmt.vander-lingen.nl".toList

/-- The literal `/start/` appearing both in `_build_url`'s format string and
in the regex of `_find_next_page_url`. -/
def startPat : List Char := "/start/".toList

/-- Decimal digit characters, used to model Python's `str(start)`. -/
def decimalDigitChar : Nat → Char
  | 0 => '0'
  | 1 => '1'
  | 2 => '2'
  | 3 => '3'
  | 4 => '4'
  | 5 => '5'
  | 6 => '6'
  | 7 => '7'
  | 8 => '8'
  | 9 => '9'
  | _ => '0'

/-- Fuel-driven accumulator for `natDecimal` (the fuel only serves structural
recursion; `natDecimal` always supplies enough). -/
def natDecimalAux : Nat → Nat → List Char → List Char
  | 0, _, acc => acc
  | _ + 1, 0, acc => acc
  | fuel + 1, n + 1, acc =>
    natDecimalAux fuel ((n + 1) / 10) (decimalDigitChar ((n + 1) % 10) :: acc)

/-- Python `str(n)` for a non-negative integer: its decimal digits. -/
def natDecimal (n : Nat) : List Char :=
  if n = 0 then ['0'] else natDecimalAux (n + 1) n []

/-- Model of `KMTScraper._build_url`:
`f"{self.BASE_URL}/data/reaction/doi/{self.doi}/start/{start}"`. -/
def build_url (doi : List Char) (start : Nat) : List Char :=
  baseUrlChars ++ "/data/reaction/doi/".toList ++ doi ++ startPat ++ natDecimal start

/-- Python `int(ds)` for a digit string, as captured by the regex group. -/
def digitsToNat (ds : List Char) : Nat :=
  ds.foldl (fun acc c => acc * 10 + (c.toNat - 48)) 0

/-- The `re.search(r"/start/(\d+)", current_url)` step of
`_find_next_page_url`: find the leftmost position where `/start/` is
followed by at least one digit, capture the maximal digit run there and
convert it with `int`. (`\d` is modelled as the ASCII digits, the only kind
occurring in this system's URLs.) -/
def searchStartNum : List Char → Option Nat
  | [] => none
  | c :: rest =>
    if startPat.isPrefixOf (c :: rest) then
      let ds := ((c :: rest).drop startPat.length).takeWhile Char.isDigit
      if ds.isEmpty then searchStartNum rest else some (digitsToNat ds)
    else searchStartNum rest

/-- Python `needle in hay` substring test. -/
def isSubstr (needle : List Char) : List Char → Bool
  | [] => needle.isEmpty
  | c :: rest => needle.isPrefixOf (c :: rest) || isSubstr needle rest

/-- The `next_indicators` list of `_find_next_page_url`. -/
def nextIndicators : List (List Char) :=
  ["next".toList, ['»'], ['>'], ['→'], "forward".toList]

/-- Href resolution of `_find_next_page_url`: absolute `http...` hrefs are
returned verbatim, `/`-rooted hrefs are appended to `BASE_URL`, anything
else gets `BASE_URL` plus a `/` prepended. -/
def resolveHref (href : List Char) : List Char :=
  if ("http".toList).isPrefixOf href then href
  else if href.head? = some '/' then baseUrlChars ++ href
  else baseUrlChars ++ '/' :: href

/-- The anchor scan of `_find_next_page_url`: the first link whose lowercased
visible text contains one of the indicators and whose `href` is non-empty is
resolved and returned. (Python `str.lower` is modelled by the ASCII
`Char.toLower`; all indicators are unaffected by case folding beyond ASCII.) -/
def findNextAnchor : List Anchor → Option (List Char)
  | [] => none
  | a :: rest =>
    if nextIndicators.any (fun ind => isSubstr ind (a.text.map Char.toLower)) then
      if a.href.isEmpty then findNextAnchor rest else some (resolveHref a.href)
    else findNextAnchor rest

/-- Model of `KMTScraper._find_next_page_url`: anchor scan first, then the numeric
`/start/N` fallback building `_build_url(N + 10)`, else `None`. -/
def find_next_page_url (doc : Document) (currentUrl doi : List Char) : Option (List Char) :=
  match findNextAnchor doc.anchors with
  | some u => some u
  | none =>
    match searchStartNum currentUrl with
    | some n => some (build_url doi (n + 10))
    | none => none

/-- Model of `KMTScraper._extract_from_data_attributes`: keep each
`data-reaction-smiles` value that is non-empty and non-blank, stripped. -/
def extract_from_data_attributes (doc : Document) : List (List Char) :=
  doc.attrSmiles.filterMap (fun s =>
    if s.isEmpty then none
    else if (pyStrip s).isEmpty then none
    else some (pyStrip s))

/-- Model of `KMTScraper._extract_from_javascript`: of the regex matches over the raw
HTML (supplied by the `Document` oracle), keep those containing `>`. -/
def extract_from_javascript (doc : Document) : List (List Char) :=
  doc.scriptMatches.filter (fun m => m.contains '>')

/-- The whitelist punctuation of the table-cell regex
`^[A-Za-z0-9\[\]()=#@+\-\\/.>]+$`. -/
def smilesPunct : List Char :=
  ['[', ']', '(', ')', '=', '#', '@', '+', '-', '\\', '/', '.', '>']

/-- Membership of one character in the table-cell regex's character class. -/
def smilesWhitelistChar (c : Char) : Bool :=
  (('A' ≤ c && c ≤ 'Z') || ('a' ≤ c && c ≤ 'z') || ('0' ≤ c && c ≤ '9'))
    || smilesPunct.contains c

/-- Python `re.match(r'^[A-Za-z0-9\[\]()=#@+\-\\/.>]+$', text)` viewed as a
boolean: the whole string is one or more whitelisted characters, where `$`
also matches just before a single trailing newline (CPython semantics). -/
def pyFullMatchWhitelist (text : List Char) : Bool :=
  let body := if text.getLast? = some '\n' then text.dropLast else text
  !body.isEmpty && body.all smilesWhitelistChar

/-- The acceptance test applied to each cell text in `_extract_from_tables`:
`if ">" in text and "." in text:` and then the whitelist regex. -/
def tableCellAccept (text : List Char) : Bool :=
  if '>' ∈ text ∧ '.' ∈ text then pyFullMatchWhitelist text else false

/-- Model of `KMTScraper._extract_from_tables`: every cell of every row of every
table whose text passes `tableCellAccept`. -/
def extract_from_tables (doc : Document) : List (List Char) :=
  (doc.tables.map (fun t =>
    (t.rows.map (fun row => row.cells.filter tableCellAccept)).flatten)).flatten

/-- The `all_smiles` set of `_process_page`: the union of the three
heuristics' results. A Python `set` is modelled as a duplicate-free list
(`dedup` keeps first occurrences; the claims are order-independent). -/
def pageCandidates (doc : Document) : List (List Char) :=
  (extract_from_data_attributes doc ++ extract_from_javascript doc
    ++ extract_from_tables doc).dedup

/-- Model of `KMTScraper._process_page`: parse each candidate, keep it only when
parsing succeeded and the products list is non-empty
(`if parsed and parsed["products"]:`), and build a `ReactionData`. -/
def process_page (doc : Document) (url ts : List Char) : List ReactionData :=
  (pageCandidates doc).filterMap (fun smiles =>
    match parse_smiles_string smiles with
    | none => none
    | some parsed =>
      if parsed.products.isEmpty then none
      else some { reaction_smiles := smiles
                , reactant_smiles := parsed.reactants
                , reagent_smiles := parsed.reagents
                , product_smiles := parsed.products
                , source_url := url
                , scraped_at := ts })

/-- The per-reaction store insertion inside `scrape`:
`if reaction.reaction_smiles not in [r.reaction_smiles for r in
self.collected_reactions]: self.collected_reactions.append(reaction)`. -/
def insert_reaction (col : List ReactionData) (r : ReactionData) : List ReactionData :=
  if r.reaction_smiles ∈ col.map (fun x => x.reaction_smiles) then col
  else col ++ [r]

/-- Instrumentation of the observable per-page side effects of `scrape`:
a successful `_fetch_page`, a failed `_fetch_page`, and the
`time.sleep(random.uniform(*delay_range))` pause. -/
inductive Event where
  | fetched (url : List Char)
  | fetchFailed (url : List Char)
  | slept
deriving DecidableEq, Repr

/-- The URL a fetch-attempt event addressed, if any. -/
def eventUrl : Event → Option (List Char)
  | Event.fetched u => some u
  | Event.fetchFailed u => some u
  | Event.slept => none

/-- Why the `while` loop of `scrape` ended: page limit reached, cycle guard
fired, fetch failed, or no next page (`current_url` became falsy). -/
inductive StopReason where
  | limit
  | cycle
  | fetchFail
  | noNext
deriving DecidableEq, Repr

/-- The outcome of a run: the final `collected_reactions`, the ordered
side-effect trace, and the reason the loop stopped. -/
structure ScrapeResult where
  collected : List ReactionData
  events : List Event
  reason : StopReason
deriving DecidableEq, Repr

/-- The `while` loop of `KMTScraper.scrape`, fuel-indexed by the remaining
page budget `max_pages - pages_scraped` (decremented exactly once per
iteration, so the fuel mirrors the loop condition `pages_scraped <
max_pages`). The body mirrors the source order: cycle check, fetch (a `None`
stops the run), `_process_page`, dedup insertion, `_find_next_page_url`,
and the inter-page sleep executed only when `current_url` is truthy. -/
def scrapeLoop (fetch : List Char → Option Document) (doi : List Char)
    (tsOf : Nat → List Char) :
    Nat → Option (List Char) → List (List Char) → List ReactionData → List Event →
    ScrapeResult
  | _, none, _, collected, events => ⟨collected, events, StopReason.noNext⟩
  | 0, some _, _, collected, events => ⟨collected, events, StopReason.limit⟩
  | fuel + 1, some cur, seen, collected, events =>
    if cur ∈ seen then ⟨collected, events, StopReason.cycle⟩
    else
      match fetch cur with
      | none => ⟨collected, events ++ [Event.fetchFailed cur], StopReason.fetchFail⟩
      | some doc =>
        let collected2 := (process_page doc cur (tsOf fuel)).foldl insert_reaction collected
        match find_next_page_url doc cur doi with
        | some nu =>
          scrapeLoop fetch doi tsOf fuel (some nu) (cur :: seen) collected2
            (events ++ [Event.fetched cur, Event.slept])
        | none =>
          scrapeLoop fetch doi tsOf fuel none (cur :: seen) collected2
            (events ++ [Event.fetched cur])

/-- Model of `KMTScraper.scrape(max_pages)`: start from `_build_url(0)` with empty
`seen_urls` and `collected_reactions`. -/
def scrape (fetch : List Char → Option Document) (doi : List Char)
    (tsOf : Nat → List Char) (maxPages : Nat) : ScrapeResult :=
  scrapeLoop fetch doi tsOf maxPages (some (build_url doi 0)) [] [] []

/-! ### Lemmas about the splitting primitives -/

theorem consHead_ne_nil (c : Char) (L : List (List Char)) : consHead c L ≠ [] := by
  cases L <;> simp [consHead]

theorem splitOnChar_ne_nil (sep : Char) (l : List Char) : splitOnChar sep l ≠ [] := by
  induction l with
  | nil => simp [splitOnChar]
  | cons c rest ih =>
    by_cases h : c = sep
    · simp [splitOnChar, h]
    · simpa [splitOnChar, h] using consHead_ne_nil c (splitOnChar sep rest)

theorem splitOnChar_of_not_mem {sep : Char} {l : List Char} (h : sep ∉ l) :
    splitOnChar sep l = [l] := by
  induction l with
  | nil => rfl
  | cons c rest ih =>
    have hc : c ≠ sep := fun he => h (he ▸ List.mem_cons_self c rest)
    have hrest : sep ∉ rest := fun hm => h (List.mem_cons_of_mem c hm)
    simp [splitOnChar, hc, ih hrest, consHead]

theorem splitOnChar_append_sep {sep : Char} {a : List Char} (rest : List Char)
    (h : sep ∉ a) : splitOnChar sep (a ++ sep :: rest) = a :: splitOnChar sep rest := by
  induction a with
  | nil => simp [splitOnChar]
  | cons c a' ih =>
    have hc : c ≠ sep := fun he => h (he ▸ List.mem_cons_self c a')
    have ha' : sep ∉ a' := fun hm => h (List.mem_cons_of_mem c hm)
    simp only [List.cons_append, splitOnChar, hc, if_false, List.append_eq, ih ha', consHead]

theorem length_splitOnChar (sep : Char) (l : List Char) :
    (splitOnChar sep l).length = l.count sep + 1 := by
  induction l with
  | nil => simp [splitOnChar]
  | cons c rest ih =>
    by_cases h : c = sep
    · simp [splitOnChar, h, List.count_cons, ih]
    · obtain ⟨f, fs, hsplit⟩ :=
        List.exists_cons_of_ne_nil (splitOnChar_ne_nil sep rest)
      have hcount : (c :: rest).count sep = rest.count sep := by
        simp [List.count_cons, h]
      simp [splitOnChar, h, hsplit, consHead, hcount, ← ih]

theorem splitOnGtGt_of_count_le_one {l : List Char} (h : l.count '>' ≤ 1) :
    splitOnGtGt l = [l] := by
  induction l with
  | nil => rfl
  | cons c rest ih =>
    cases rest with
    | nil => rfl
    | cons c2 rest2 =>
      by_cases hgg : c = '>' ∧ c2 = '>'
      · exfalso
        obtain ⟨h1, h2⟩ := hgg
        subst h1; subst h2
        have e : (('>') :: ('>') :: rest2).count '>' = rest2.count '>' + 1 + 1 := by
          simp [List.count_cons]
        rw [e] at h
        omega
      · have hrest : (c2 :: rest2).count '>' ≤ 1 :=
          le_trans ((List.sublist_cons_self c (c2 :: rest2)).count_le '>') h
        simp [splitOnGtGt, hgg, ih hrest, consHead]

theorem splitComponents_nil : splitComponents [] = [] := rfl

/-! ### Claims C1, C2, C3 — the StringSplitter -/

/-- C1, counterexample. The claim asserts `split(">", maxsplit=2)` semantics:
on `"a>b>c>d"` (more than two `>`) the products field would be the components
of everything after the second `>`, i.e. `["c>d"]`. The code's
`smiles.split(">")` has no `maxsplit`, so the products come from `parts[2]`
alone (`["c"]`) and `"d"` is discarded, refuting the claim at this input. -/
theorem claimC1_counterexample :
    2 < ("a>b>c>d".toList.count '>')
    ∧ split_gt_maxsplit2 "a>b>c>d".toList = ["a".toList, "b".toList, "c>d".toList]
    ∧ splitComponents "c>d".toList = ["c>d".toList]
    ∧ (parse_smiles_string "a>b>c>d".toList).map ParsedReaction.products = some [['c']]
    ∧ ([['c']] : List (List Char)) ≠ ["c>d".toList] := by
  decide

/-- C1, amended: for every raw string with more than two `>` separators
(written `a>b>c>d` with `a`, `b`, `c` free of `>` and `d` arbitrary), the
splitter uses split-at-every-occurrence semantics: reactants, reagents and
products are the fields before the first, between the first and second, and
between the second and third `>`; all content after the third `>` is
discarded rather than joined into the products field. -/
theorem claimC1_amended (a b c d : List Char)
    (ha : '>' ∉ a) (hb : '>' ∉ b) (hc : '>' ∉ c) :
    parse_smiles_string (a ++ '>' :: (b ++ '>' :: (c ++ '>' :: d)))
      = some ⟨splitComponents a, splitComponents b, splitComponents c⟩ := by
  have h1 : splitOnChar '>' (a ++ '>' :: (b ++ '>' :: (c ++ '>' :: d)))
      = a :: b :: c :: splitOnChar '>' d := by
    rw [splitOnChar_append_sep _ ha, splitOnChar_append_sep _ hb,
      splitOnChar_append_sep _ hc]
  obtain ⟨f, fs, hd⟩ := List.exists_cons_of_ne_nil (splitOnChar_ne_nil '>' d)
  rw [hd] at h1
  have hlen : ¬ (a :: b :: c :: f :: fs).length < 3 := by
    simp only [List.length_cons]; omega
  simp only [parse_smiles_string, parseSmilesParts, h1, hlen, if_false]
  have l1 : 1 < (a :: b :: c :: f :: fs).length := by
    simp only [List.length_cons]; omega
  have l2 : 2 < (a :: b :: c :: f :: fs).length := by
    simp only [List.length_cons]; omega
  simp [l1, l2, List.getD]

/-- C1, witness for the amended theorem at `"x>y>z>w>v"`. -/
theorem claimC1_witness :
    parse_smiles_string "x>y>z>w>v".toList = some ⟨[['x']], [['y']], [['z']]⟩ := by
  have h := claimC1_amended ['x'] ['y'] ['z'] "w>v".toList
    (by decide) (by decide) (by decide)
  exact h

/-- C2, counterexample. `"a>b"` contains an arrow delimiter `>`, yet
`_parse_smiles_string` returns `None`: `split(">")` gives two parts, and the
`split(">>")` fallback gives a single part, matching neither branch. -/
theorem claimC2_counterexample :
    '>' ∈ "a>b".toList ∧ parse_smiles_string "a>b".toList = none := by
  decide

/-- C2, amended: `split` returns nothing **iff** the raw string contains
fewer than two `>` characters. Strings with no `>` and strings with exactly
one `>` both return nothing; every string with at least two `>` (single- or
double-arrow form) yields a successfully split result. -/
theorem claimC2_amended (s : List Char) :
    parse_smiles_string s = none ↔ s.count '>' < 2 := by
  constructor
  · intro h
    by_contra hge
    push_neg at hge
    have hlen : ¬ (splitOnChar '>' s).length < 3 := by
      rw [length_splitOnChar]; omega
    simp only [parse_smiles_string, parseSmilesParts, hlen, if_false] at h
    exact Option.noConfusion h
  · intro hlt
    have hle : s.count '>' ≤ 1 := by omega
    have hlen : (splitOnChar '>' s).length < 3 := by
      rw [length_splitOnChar]; omega
    simp only [parse_smiles_string, parseSmilesParts, hlen, if_true,
      splitOnGtGt_of_count_le_one hle]

/-- C3, counterexample. `"a>b>>c"` contains exactly one occurrence of `>>`
(its `split(">>")` has exactly two fields), but the code returns
reagents `["b"]` — not the empty sequence the claim requires — because
`split(">")` already produced four parts. -/
theorem claimC3_counterexample :
    (splitOnGtGt "a>b>>c".toList).length = 2
    ∧ parse_smiles_string "a>b>>c".toList = some ⟨[['a']], [['b']], []⟩
    ∧ ([['b']] : List (List Char)) ≠ [] := by
  decide

/-- C3, amended: for every raw string of the form `a>>b` in which the only
`>` characters are the single `>>`, `split` returns reagents = empty and
reactants/products exactly the components of the two surrounding fields. -/
theorem claimC3_amended (a b : List Char) (ha : '>' ∉ a) (hb : '>' ∉ b) :
    parse_smiles_string (a ++ '>' :: '>' :: b)
      = some ⟨splitComponents a, [], splitComponents b⟩ := by
  have h1 : splitOnChar '>' (a ++ '>' :: ('>' :: b)) = a :: splitOnChar '>' ('>' :: b) :=
    splitOnChar_append_sep _ ha
  have h2 : splitOnChar '>' ('>' :: b) = [] :: splitOnChar '>' b := by
    simp [splitOnChar]
  rw [splitOnChar_of_not_mem hb] at h2
  rw [h2] at h1
  have hlen : ¬ ([a, [], b] : List (List Char)).length < 3 := by simp
  simp only [parse_smiles_string, parseSmilesParts, h1, hlen, if_false]
  simp [List.getD, splitComponents_nil]

/-- C3, witness for the amended theorem at the specification's own example
`"CCO.CC(=O)O>>CC(=O)OCC.O"`. -/
theorem claimC3_witness :
    parse_smiles_string "CCO.CC(=O)O>>CC(=O)OCC.O".toList
      = some ⟨["CCO".toList, "CC(=O)O".toList], [],
              ["CC(=O)OCC".toList, "O".toList]⟩ := by
  have h := claimC3_amended "CCO.CC(=O)O".toList "CC(=O)OCC.O".toList
    (by decide) (by decide)
  have e : "CCO.CC(=O)O".toList ++ '>' :: '>' :: "CC(=O)OCC.O".toList
      = "CCO.CC(=O)O>>CC(=O)OCC.O".toList := by decide
  rw [e] at h
  rw [h]
  decide

/-! ### Lemmas about `pyStrip` and the table-cell heuristic (claim C10) -/

theorem dropWhile_length_le (p : Char → Bool) (l : List Char) :
    (l.dropWhile p).length ≤ l.length := by
  induction l with
  | nil => simp
  | cons c rest ih =>
    by_cases h : p c
    · rw [List.dropWhile_cons, if_pos h]
      exact le_trans ih (Nat.le_succ _)
    · rw [List.dropWhile_cons, if_neg h]

theorem dropWhile_eq_self_of_length {p : Char → Bool} {l : List Char}
    (h : (l.dropWhile p).length = l.length) : l.dropWhile p = l := by
  cases l with
  | nil => simp
  | cons c rest =>
    by_cases hp : p c
    · exfalso
      rw [List.dropWhile_cons, if_pos hp] at h
      have := dropWhile_length_le p rest
      simp [List.length_cons] at h
      omega
    · rw [List.dropWhile_cons, if_neg hp]

/-- A string fixed by `strip` does not end in a whitespace character. -/
theorem getLast_not_ws_of_pyStrip_eq {l : List Char} (h : pyStrip l = l) :
    ∀ c, l.getLast? = some c → c.isWhitespace = false := by
  intro c hc
  have hlen2 : ((l.dropWhile Char.isWhitespace).reverse.dropWhile Char.isWhitespace).length
      = l.length := by
    have := congrArg List.length h
    simpa [pyStrip] using this
  have le1 : ((l.dropWhile Char.isWhitespace).reverse.dropWhile Char.isWhitespace).length
      ≤ (l.dropWhile Char.isWhitespace).length := by
    simpa using dropWhile_length_le Char.isWhitespace (l.dropWhile Char.isWhitespace).reverse
  have le2 : (l.dropWhile Char.isWhitespace).length ≤ l.length :=
    dropWhile_length_le Char.isWhitespace l
  have e1 : l.dropWhile Char.isWhitespace = l :=
    dropWhile_eq_self_of_length (by omega)
  have e2 : (l.dropWhile Char.isWhitespace).reverse.dropWhile Char.isWhitespace
      = (l.dropWhile Char.isWhitespace).reverse :=
    dropWhile_eq_self_of_length (by rw [e1] at hlen2 ⊢; simpa using hlen2)
  rw [e1] at e2
  have hrev : l.reverse.head? = some c := by
    rw [List.head?_reverse]; exact hc
  cases hr : l.reverse with
  | nil => rw [hr] at hrev; exact absurd hrev (by simp)
  | cons x t =>
    rw [hr] at hrev
    have hxc : x = c := by simpa using hrev
    rw [hr] at e2
    by_cases hw : x.isWhitespace
    · exfalso
      rw [List.dropWhile_cons, if_pos hw] at e2
      have := congrArg List.length e2
      have hle := dropWhile_length_le Char.isWhitespace t
      simp [List.length_cons] at this
      omega
    · rw [← hxc]
      exact Bool.not_eq_true _ ▸ (by simpa using hw)

/-- C10: the table-cell heuristic accepts a cell's trimmed text (a text fixed
by `strip`) **iff** it contains `>` and `.` and every character belongs to
the whitelist of letters, digits and the fixed SMILES punctuation; in
particular any trimmed cell text containing a character outside the
whitelist is rejected. -/
theorem claimC10_thm (text : List Char) (h : pyStrip text = text) :
    tableCellAccept text = true
      ↔ ('>' ∈ text ∧ '.' ∈ text ∧ ∀ c ∈ text, smilesWhitelistChar c = true) := by
  have hlast : ¬ text.getLast? = some '\n' := by
    intro he
    have hf := getLast_not_ws_of_pyStrip_eq h '\n' he
    exact absurd hf (by decide)
  constructor
  · intro hacc
    by_cases hmem : '>' ∈ text ∧ '.' ∈ text
    · refine ⟨hmem.1, hmem.2, ?_⟩
      rw [tableCellAccept, if_pos hmem, pyFullMatchWhitelist] at hacc
      rw [if_neg hlast] at hacc
      intro c hcm
      have := (Bool.and_eq_true _ _).mp hacc
      exact List.all_eq_true.mp this.2 c hcm
    · rw [tableCellAccept, if_neg hmem] at hacc
      exact absurd hacc (by simp)
  · rintro ⟨h1, h2, h3⟩
    rw [tableCellAccept, if_pos ⟨h1, h2⟩, pyFullMatchWhitelist]
    rw [if_neg hlast]
    have hne : ¬ text.isEmpty = true := by
      simp [List.isEmpty_iff]
      exact List.ne_nil_of_mem h1
    rw [Bool.and_eq_true]
    exact ⟨by simpa using hne, List.all_eq_true.mpr h3⟩

/-- C10, witness at the trimmed cell text `"CC.O>CCO"`. -/
theorem claimC10_witness : tableCellAccept "CC.O>CCO".toList = true :=
  (claimC10_thm "CC.O>CCO".toList (by decide)).mpr (by decide)

/-! ### Lemmas about the store and `_process_page` (claims C4, C5) -/

theorem insert_reaction_nodup {col : List ReactionData} (r : ReactionData)
    (h : (col.map (fun x => x.reaction_smiles)).Nodup) :
    ((insert_reaction col r).map (fun x => x.reaction_smiles)).Nodup := by
  unfold insert_reaction
  by_cases hm : r.reaction_smiles ∈ col.map (fun x => x.reaction_smiles)
  · rw [if_pos hm]; exact h
  · rw [if_neg hm]
    simp [List.nodup_append, h, hm]

theorem foldl_insert_nodup (rs : List ReactionData) :
    ∀ col : List ReactionData, (col.map (fun x => x.reaction_smiles)).Nodup →
      ((rs.foldl insert_reaction col).map (fun x => x.reaction_smiles)).Nodup := by
  induction rs with
  | nil => intro col h; exact h
  | cons r rs ih => intro col h; exact ih _ (insert_reaction_nodup r h)

theorem mem_insert_reaction {col : List ReactionData} {r x : ReactionData}
    (h : x ∈ insert_reaction col r) : x ∈ col ∨ x = r := by
  unfold insert_reaction at h
  by_cases hm : r.reaction_smiles ∈ col.map (fun y => y.reaction_smiles)
  · rw [if_pos hm] at h; exact Or.inl h
  · rw [if_neg hm] at h
    rcases List.mem_append.mp h with h1 | h2
    · exact Or.inl h1
    · exact Or.inr (by simpa using h2)

theorem foldl_insert_preserve (Q : ReactionData → Prop) (rs : List ReactionData)
    (hrs : ∀ r ∈ rs, Q r) :
    ∀ col : List ReactionData, (∀ x ∈ col, Q x) →
      ∀ x ∈ rs.foldl insert_reaction col, Q x := by
  induction rs with
  | nil => intro col h; exact h
  | cons r rs ih =>
    intro col h
    refine ih (fun a ha => hrs a (List.mem_cons_of_mem r ha)) _ ?_
    intro x hx
    rcases mem_insert_reaction hx with h1 | h2
    · exact h x h1
    · exact h2 ▸ hrs r (List.mem_cons_self r rs)

theorem process_page_products {doc : Document} {url ts : List Char} {r : ReactionData}
    (h : r ∈ process_page doc url ts) : r.product_smiles ≠ [] := by
  unfold process_page at h
  obtain ⟨s, _, hsome⟩ := List.mem_filterMap.mp h
  split at hsome
  · exact absurd hsome (by simp)
  · split at hsome
    · exact absurd hsome (by simp)
    · rename_i he
      have hr := Option.some.inj hsome
      rw [← hr]
      simpa [List.isEmpty_iff] using he

/-- Preservation of an invariant of `collected_reactions` through the whole
`scrape` loop: an invariant preserved by one page's batch of insertions is
preserved by any run. -/
theorem scrapeLoop_collected_pres (fetch : List Char → Option Document)
    (doi : List Char) (tsOf : Nat → List Char) (P : List ReactionData → Prop)
    (hstep : ∀ col doc url ts, P col →
      P ((process_page doc url ts).foldl insert_reaction col)) :
    ∀ (fuel : Nat) (curOpt : Option (List Char)) (seen : List (List Char))
      (col : List ReactionData) (ev : List Event), P col →
      P (scrapeLoop fetch doi tsOf fuel curOpt seen col ev).collected := by
  intro fuel
  induction fuel with
  | zero =>
    intro curOpt seen col ev h
    cases curOpt <;> simpa [scrapeLoop] using h
  | succ fuel ih =>
    intro curOpt seen col ev h
    cases curOpt with
    | none => simpa [scrapeLoop] using h
    | some cur =>
      by_cases hseen : cur ∈ seen
      · simpa [scrapeLoop, hseen] using h
      · cases hf : fetch cur with
        | none => simpa [scrapeLoop, hseen, hf] using h
        | some doc =>
          have h2 := hstep col doc cur (tsOf fuel) h
          cases hn : find_next_page_url doc cur doi with
          | some nu => simpa [scrapeLoop, hseen, hf, hn] using ih _ _ _ _ h2
          | none =>
            simpa [scrapeLoop, hseen, hf, hn] using
              ih none (cur :: seen) _ (ev ++ [Event.fetched cur]) h2

/-- C4: the store insertion of `scrape` is idempotent on the
`reaction_smiles` key — inserting a record whose raw string is already
stored returns the store unchanged — a batch of insertions preserves
key-uniqueness of the store, and consequently in every run the
`reaction_smiles` values of the collected records are pairwise distinct. -/
theorem claimC4_thm :
    (∀ (col : List ReactionData) (r : ReactionData),
        r.reaction_smiles ∈ col.map (fun x => x.reaction_smiles) →
        insert_reaction col r = col)
    ∧ (∀ (col : List ReactionData) (rs : List ReactionData),
        (col.map (fun x => x.reaction_smiles)).Nodup →
        ((rs.foldl insert_reaction col).map (fun x => x.reaction_smiles)).Nodup)
    ∧ (∀ (fetch : List Char → Option Document) (doi : List Char)
        (tsOf : Nat → List Char) (maxPages : Nat),
        (((scrape fetch doi tsOf maxPages).collected).map
          (fun x => x.reaction_smiles)).Nodup) := by
  refine ⟨?_, ?_, ?_⟩
  · intro col r h
    unfold insert_reaction
    rw [if_pos h]
  · intro col rs h
    exact foldl_insert_nodup rs col h
  · intro fetch doi tsOf maxPages
    unfold scrape
    exact scrapeLoop_collected_pres fetch doi tsOf
      (fun col => (col.map (fun x => x.reaction_smiles)).Nodup)
      (fun col doc url ts h => foldl_insert_nodup _ _ h)
      maxPages (some (build_url doi 0)) [] [] [] (by simp)

/-- C4, witness: re-inserting a record carrying an already-stored raw string
leaves the store unchanged. -/
theorem claimC4_witness :
    insert_reaction [⟨['s'], [], [], [], [], []⟩] ⟨['s'], [['x']], [], [], [], []⟩
      = [⟨['s'], [], [], [], [], []⟩] :=
  claimC4_thm.1 _ _ (by decide)

/-- C5: every record produced by `_process_page` has a non-empty products
sequence (the rejection happens there, at the caller of the splitter, before
insertion); the splitter itself happily returns an empty products list (for
`"a>b>"`), showing the rejection is not inside the splitter; and every record
in the store at the end of any run has a non-empty products sequence. -/
theorem claimC5_thm :
    (∀ (doc : Document) (url ts : List Char) (r : ReactionData),
        r ∈ process_page doc url ts → r.product_smiles ≠ [])
    ∧ parse_smiles_string "a>b>".toList = some ⟨[['a']], [['b']], []⟩
    ∧ (∀ (fetch : List Char → Option Document) (doi : List Char)
        (tsOf : Nat → List Char) (maxPages : Nat) (r : ReactionData),
        r ∈ (scrape fetch doi tsOf maxPages).collected → r.product_smiles ≠ []) := by
  refine ⟨fun doc url ts r h => process_page_products h, by decide, ?_⟩
  intro fetch doi tsOf maxPages r hr
  have := scrapeLoop_collected_pres fetch doi tsOf
    (fun col => ∀ x ∈ col, x.product_smiles ≠ [])
    (fun col doc url ts h =>
      foldl_insert_preserve _ _ (fun a ha => process_page_products ha) col h)
    maxPages (some (build_url doi 0)) [] [] [] (by simp)
  exact this r hr

/-- C5, witness: a concrete page whose single candidate parses with
non-empty products yields a stored record with non-empty products. -/
theorem claimC5_witness :
    (⟨"a>b>c".toList, [['a']], [['b']], [['c']], [], []⟩ : ReactionData).product_smiles
      ≠ [] :=
  claimC5_thm.1 ⟨["a>b>c".toList], [], [], []⟩ [] []
    ⟨"a>b>c".toList, [['a']], [['b']], [['c']], [], []⟩ (by decide)

/-! ### Lemmas about pagination (claim C6) -/

theorem decimalDigitChar_isDigit (m : Nat) : (decimalDigitChar m).isDigit = true := by
  unfold decimalDigitChar
  split <;> decide

theorem natDecimalAux_zero (fuel : Nat) (acc : List Char) :
    natDecimalAux fuel 0 acc = acc := by
  cases fuel <;> rfl

theorem natDecimalAux_head : ∀ (fuel n : Nat) (acc : List Char), n ≠ 0 → n ≤ fuel →
    ∃ d t, natDecimalAux fuel n acc = d :: t ∧ d.isDigit = true := by
  intro fuel
  induction fuel with
  | zero => intro n acc h hle; omega
  | succ fuel ih =>
    intro n acc h hle
    cases n with
    | zero => exact absurd rfl h
    | succ n' =>
      rw [show natDecimalAux (fuel + 1) (n' + 1) acc
          = natDecimalAux fuel ((n' + 1) / 10) (decimalDigitChar ((n' + 1) % 10) :: acc)
        from rfl]
      by_cases h10 : (n' + 1) / 10 = 0
      · rw [h10, natDecimalAux_zero]
        exact ⟨_, _, rfl, decimalDigitChar_isDigit _⟩
      · have hlt : (n' + 1) / 10 ≤ fuel := by
          have := Nat.div_lt_self (Nat.succ_pos n') (by norm_num : 1 < 10)
          omega
        exact ih _ _ h10 hlt

theorem natDecimal_head (n : Nat) :
    ∃ d t, natDecimal n = d :: t ∧ d.isDigit = true := by
  unfold natDecimal
  by_cases h : n = 0
  · rw [if_pos h]
    exact ⟨'0', [], rfl, by decide⟩
  · rw [if_neg h]
    exact natDecimalAux_head (n + 1) n [] h (by omega)

/-- If `/start/` followed by a digit occurs anywhere in the string, the
`re.search` model finds a match. -/
theorem searchStartNum_of_occ : ∀ (pre : List Char) (d : Char) (rest : List Char),
    d.isDigit = true → searchStartNum (pre ++ startPat ++ d :: rest) ≠ none := by
  intro pre
  induction pre with
  | nil =>
    intro d rest hd
    have e : ([] : List Char) ++ startPat ++ d :: rest
        = '/' :: 's' :: 't' :: 'a' :: 'r' :: 't' :: '/' :: d :: rest := rfl
    rw [e]
    simp [searchStartNum, startPat, List.isPrefixOf, List.takeWhile_cons, hd]
  | cons c pre ih =>
    intro d rest hd
    have e : (c :: pre) ++ startPat ++ d :: rest
        = c :: (pre ++ startPat ++ d :: rest) := by simp
    rw [e]
    simp only [searchStartNum]
    split
    · split
      · exact ih d rest hd
      · simp
    · exact ih d rest hd

theorem build_url_searchStart (doi : List Char) (k : Nat) :
    searchStartNum (build_url doi k) ≠ none := by
  obtain ⟨d, t, hnd, hdig⟩ := natDecimal_head k
  have e : build_url doi k
      = (baseUrlChars ++ "/data/reaction/doi/".toList ++ doi) ++ startPat ++ (d :: t) := by
    rw [build_url, hnd]
  rw [e]
  exact searchStartNum_of_occ _ d t hdig

/-- C6: when no next-page anchor matches and the current URL contains a
numeric `/start/N` segment (`N` being the leftmost match, as `re.search`
takes it), `_find_next_page_url` returns `_build_url(N + 10)`; and for every
URL the orchestrator itself constructs — `_build_url(doi, k)`, which always
ends in `/start/` followed by digits — the planner never returns `None` when
the document has no matching anchor. -/
theorem claimC6_thm (doc : Document) (url doi : List Char) (n : Nat)
    (ha : findNextAnchor doc.anchors = none) (hs : searchStartNum url = some n) :
    find_next_page_url doc url doi = some (build_url doi (n + 10))
    ∧ ∀ k, find_next_page_url doc (build_url doi k) doi ≠ none := by
  constructor
  · simp [find_next_page_url, ha, hs]
  · intro k
    simp only [find_next_page_url, ha]
    cases hk : searchStartNum (build_url doi k) with
    | none => exact absurd hk (build_url_searchStart doi k)
    | some m => simp

/-- C6, witness: the empty document has no matching anchor, `"/start/0"`
carries offset 0, and the planner output and the never-`None` property are
checked at offset 0. -/
theorem claimC6_witness :
    find_next_page_url ⟨[], [], [], []⟩ "/start/0".toList ['d']
        = some (build_url ['d'] 10)
    ∧ find_next_page_url ⟨[], [], [], []⟩ (build_url ['d'] 0) ['d'] ≠ none := by
  have h := claimC6_thm ⟨[], [], [], []⟩ "/start/0".toList ['d'] 0
    (by decide) (by decide)
  exact ⟨h.1, h.2 0⟩

/-! ### Lemmas about the scrape loop trace (claims C7, C8, C9) -/

/-- In any run segment entered with a live URL, ending with reason
`noNext` (the planner returned nothing) means the trace ends with the
`fetched` event of the final page — no trailing sleep. -/
theorem scrapeLoop_noNext_last (fetch : List Char → Option Document)
    (doi : List Char) (tsOf : Nat → List Char) :
    ∀ (fuel : Nat) (cur : List Char) (seen : List (List Char))
      (col : List ReactionData) (ev : List Event),
      (scrapeLoop fetch doi tsOf fuel (some cur) seen col ev).reason = StopReason.noNext →
      ∃ u, (scrapeLoop fetch doi tsOf fuel (some cur) seen col ev).events.getLast?
          = some (Event.fetched u) := by
  intro fuel
  induction fuel with
  | zero =>
    intro cur seen col ev h
    simp [scrapeLoop] at h
  | succ fuel ih =>
    intro cur seen col ev h
    by_cases hseen : cur ∈ seen
    · simp [scrapeLoop, hseen] at h
    · cases hf : fetch cur with
      | none => simp [scrapeLoop, hseen, hf] at h
      | some doc =>
        cases hn : find_next_page_url doc cur doi with
        | some nu =>
          have e : scrapeLoop fetch doi tsOf (fuel + 1) (some cur) seen col ev
              = scrapeLoop fetch doi tsOf fuel (some nu) (cur :: seen)
                  ((process_page doc cur (tsOf fuel)).foldl insert_reaction col)
                  (ev ++ [Event.fetched cur, Event.slept]) := by
            simp [scrapeLoop, hseen, hf, hn]
          rw [e] at h ⊢
          exact ih _ _ _ _ h
        | none =>
          have e : scrapeLoop fetch doi tsOf (fuel + 1) (some cur) seen col ev
              = ⟨(process_page doc cur (tsOf fuel)).foldl insert_reaction col,
                 ev ++ [Event.fetched cur], StopReason.noNext⟩ := by
            simp [scrapeLoop, hseen, hf, hn]
          rw [e]
          exact ⟨cur, List.getLast?_concat _⟩

/-- Every fetch attempt in a run segment addresses a URL outside `seen`, and
no URL is attempted twice within the segment. -/
theorem scrapeLoop_events_decomp (fetch : List Char → Option Document)
    (doi : List Char) (tsOf : Nat → List Char) :
    ∀ (fuel : Nat) (curOpt : Option (List Char)) (seen : List (List Char))
      (col : List ReactionData) (ev : List Event),
      ∃ newEvs, (scrapeLoop fetch doi tsOf fuel curOpt seen col ev).events = ev ++ newEvs
        ∧ (newEvs.filterMap eventUrl).Nodup
        ∧ ∀ u ∈ newEvs.filterMap eventUrl, u ∉ seen := by
  intro fuel
  induction fuel with
  | zero =>
    intro curOpt seen col ev
    cases curOpt with
    | none => exact ⟨[], by simp [scrapeLoop], by simp, by simp⟩
    | some cur => exact ⟨[], by simp [scrapeLoop], by simp, by simp⟩
  | succ fuel ih =>
    intro curOpt seen col ev
    cases curOpt with
    | none => exact ⟨[], by simp [scrapeLoop], by simp, by simp⟩
    | some cur =>
      by_cases hseen : cur ∈ seen
      · exact ⟨[], by simp [scrapeLoop, hseen], by simp, by simp⟩
      · cases hf : fetch cur with
        | none =>
          refine ⟨[Event.fetchFailed cur], by simp [scrapeLoop, hseen, hf],
            by simp [eventUrl], ?_⟩
          intro u hu
          simp [eventUrl] at hu
          exact hu ▸ hseen
        | some doc =>
          cases hn : find_next_page_url doc cur doi with
          | some nu =>
            obtain ⟨newEvs, he, hnd, hdis⟩ := ih (some nu) (cur :: seen)
              ((process_page doc cur (tsOf fuel)).foldl insert_reaction col)
              (ev ++ [Event.fetched cur, Event.slept])
            have hfm : ([Event.fetched cur, Event.slept] ++ newEvs).filterMap eventUrl
                = cur :: newEvs.filterMap eventUrl := by
              simp [eventUrl]
            refine ⟨[Event.fetched cur, Event.slept] ++ newEvs, ?_, ?_, ?_⟩
            · have e : scrapeLoop fetch doi tsOf (fuel + 1) (some cur) seen col ev
                  = scrapeLoop fetch doi tsOf fuel (some nu) (cur :: seen)
                      ((process_page doc cur (tsOf fuel)).foldl insert_reaction col)
                      (ev ++ [Event.fetched cur, Event.slept]) := by
                simp [scrapeLoop, hseen, hf, hn]
              rw [e, he]
              simp
            · rw [hfm]
              exact (List.nodup_cons).mpr
                ⟨fun hmem => (hdis cur hmem) (List.mem_cons_self cur seen), hnd⟩
            · rw [hfm]
              intro u hu
              rcases List.mem_cons.mp hu with h1 | h2
              · exact h1 ▸ hseen
              · exact fun hus => hdis u h2 (List.mem_cons_of_mem cur hus)
          | none =>
            refine ⟨[Event.fetched cur], by simp [scrapeLoop, hseen, hf, hn],
              by simp [eventUrl], ?_⟩
            intro u hu
            simp [eventUrl] at hu
            exact hu ▸ hseen

/-- C7, counterexample. With `max_pages = 1` and a page whose planner fallback
yields a next URL, the run ends because the page limit is reached and yet the
trace ends with a sleep: the pause is **not** skipped after the final page
when the run ends by the page limit. -/
theorem claimC7_counterexample :
    (scrape (fun _ => some ⟨[], [], [], []⟩) ['d'] (fun _ => []) 1).events
      = [Event.fetched (build_url ['d'] 0), Event.slept]
    ∧ (scrape (fun _ => some ⟨[], [], [], []⟩) ['d'] (fun _ => []) 1).events.getLast?
      = some Event.slept
    ∧ (scrape (fun _ => some ⟨[], [], [], []⟩) ['d'] (fun _ => []) 1).reason
      = StopReason.limit := by
  decide

/-- C7, amended: the pause is emitted after a page exactly when the planner
returned a next URL for it. Hence when a run ends because the planner found
no next page, the trace does not end with a sleep; but after a page whose
planner returned a next URL the sleep always occurs — even when the page
limit then stops the run. -/
theorem claimC7_amended :
    (∀ (fetch : List Char → Option Document) (doi : List Char)
        (tsOf : Nat → List Char) (maxPages : Nat),
        (scrape fetch doi tsOf maxPages).reason = StopReason.noNext →
        (scrape fetch doi tsOf maxPages).events.getLast? ≠ some Event.slept)
    ∧ (∀ (fetch : List Char → Option Document) (doi : List Char)
        (tsOf : Nat → List Char) (fuel : Nat) (cur : List Char)
        (seen : List (List Char)) (col : List ReactionData) (ev : List Event)
        (doc : Document) (nu : List Char),
        cur ∉ seen → fetch cur = some doc →
        find_next_page_url doc cur doi = some nu →
        scrapeLoop fetch doi tsOf (fuel + 1) (some cur) seen col ev
          = scrapeLoop fetch doi tsOf fuel (some nu) (cur :: seen)
              ((process_page doc cur (tsOf fuel)).foldl insert_reaction col)
              (ev ++ [Event.fetched cur, Event.slept]))
    ∧ (∀ (fetch : List Char → Option Document) (doi : List Char)
        (tsOf : Nat → List Char) (fuel : Nat) (cur : List Char)
        (seen : List (List Char)) (col : List ReactionData) (ev : List Event)
        (doc : Document),
        cur ∉ seen → fetch cur = some doc →
        find_next_page_url doc cur doi = none →
        scrapeLoop fetch doi tsOf (fuel + 1) (some cur) seen col ev
          = ⟨(process_page doc cur (tsOf fuel)).foldl insert_reaction col,
             ev ++ [Event.fetched cur], StopReason.noNext⟩) := by
  refine ⟨?_, ?_, ?_⟩
  · intro fetch doi tsOf maxPages h
    obtain ⟨u, hu⟩ := scrapeLoop_noNext_last fetch doi tsOf maxPages
      (build_url doi 0) [] [] [] h
    unfold scrape
    rw [hu]
    simp
  · intro fetch doi tsOf fuel cur seen col ev doc nu h1 h2 h3
    simp [scrapeLoop, h1, h2, h3]
  · intro fetch doi tsOf fuel cur seen col ev doc h1 h2 h3
    simp [scrapeLoop, h1, h2, h3]

/-- C7, witness for the amended theorem: a run that follows one anchor and
then finds no next page ends with reason `noNext` and its trace ends with a
`fetched` event (no trailing sleep); and the two per-iteration equations are
checked at concrete states. -/
theorem claimC7_witness :
    ((scrape (fun u => if u = build_url ['d'] 0
          then some ⟨[], [], [], [⟨"next".toList, "/o".toList⟩]⟩
          else if u = baseUrlChars ++ "/o".toList then some ⟨[], [], [], []⟩
          else none) ['d'] (fun _ => []) 5).reason = StopReason.noNext
      ∧ (scrape (fun u => if u = build_url ['d'] 0
          then some ⟨[], [], [], [⟨"next".toList, "/o".toList⟩]⟩
          else if u = baseUrlChars ++ "/o".toList then some ⟨[], [], [], []⟩
          else none) ['d'] (fun _ => []) 5).events.getLast? ≠ some Event.slept)
    ∧ scrapeLoop (fun _ => some ⟨[], [], [], []⟩) ['d'] (fun _ => []) 1
        (some "/start/0".toList) [] [] []
      = scrapeLoop (fun _ => some ⟨[], [], [], []⟩) ['d'] (fun _ => []) 0
          (some (build_url ['d'] 10)) ["/start/0".toList]
          ((process_page ⟨[], [], [], []⟩ "/start/0".toList []).foldl insert_reaction [])
          ([] ++ [Event.fetched "/start/0".toList, Event.slept])
    ∧ scrapeLoop (fun _ => some ⟨[], [], [], []⟩) ['d'] (fun _ => []) 1
        (some ['x']) [] [] []
      = ⟨(process_page ⟨[], [], [], []⟩ ['x'] []).foldl insert_reaction [],
         [] ++ [Event.fetched ['x']], StopReason.noNext⟩ := by
  refine ⟨⟨by decide, ?_⟩, ?_, ?_⟩
  · exact claimC7_amended.1 _ ['d'] (fun _ => []) 5 (by decide)
  · exact claimC7_amended.2.1 _ ['d'] (fun _ => []) 0 "/start/0".toList [] [] []
      ⟨[], [], [], []⟩ (build_url ['d'] 10) (by decide) rfl (by decide)
  · exact claimC7_amended.2.2 _ ['d'] (fun _ => []) 0 ['x'] [] [] []
      ⟨[], [], [], []⟩ (by decide) rfl (by decide)

/-- C8: if the planner ever hands the orchestrator a URL already in
`seen_urls`, the loop stops in that very iteration with no further events —
in particular the repeated URL is not fetched again — and globally no URL is
ever fetch-attempted twice in a run. -/
theorem claimC8_thm :
    (∀ (fetch : List Char → Option Document) (doi : List Char)
        (tsOf : Nat → List Char) (fuel : Nat) (u : List Char)
        (seen : List (List Char)) (col : List ReactionData) (ev : List Event),
        u ∈ seen →
        scrapeLoop fetch doi tsOf (fuel + 1) (some u) seen col ev
          = ⟨col, ev, StopReason.cycle⟩)
    ∧ (∀ (fetch : List Char → Option Document) (doi : List Char)
        (tsOf : Nat → List Char) (maxPages : Nat),
        (((scrape fetch doi tsOf maxPages).events).filterMap eventUrl).Nodup) := by
  constructor
  · intro fetch doi tsOf fuel u seen col ev h
    simp [scrapeLoop, h]
  · intro fetch doi tsOf maxPages
    obtain ⟨newEvs, he, hnd, _⟩ := scrapeLoop_events_decomp fetch doi tsOf maxPages
      (some (build_url doi 0)) [] [] []
    unfold scrape
    rw [he]
    simpa using hnd

/-- C8, witness: the cycle guard stops a concrete loop state without
fetching, and a concrete two-page run attempts each URL once. -/
theorem claimC8_witness :
    scrapeLoop (fun _ => some ⟨[], [], [], []⟩) ['d'] (fun _ => []) 3
        (some ['u']) [['u']] [] []
      = ⟨[], [], StopReason.cycle⟩
    ∧ (((scrape (fun _ => some ⟨[], [], [], []⟩) ['d'] (fun _ => []) 2).events).filterMap
        eventUrl).Nodup :=
  ⟨claimC8_thm.1 _ ['d'] (fun _ => []) 2 ['u'] [['u']] [] [] (by decide),
   claimC8_thm.2 _ ['d'] (fun _ => []) 2⟩

/-- C9: a failed fetch is fatal and atomic at the page boundary — the loop
returns immediately with reason `fetchFail`, emitting only the failure event,
performing no retry, adding no record for the failed page, and returning the
store exactly as collected from the earlier pages. -/
theorem claimC9_thm (fetch : List Char → Option Document) (doi : List Char)
    (tsOf : Nat → List Char) (fuel : Nat) (cur : List Char)
    (seen : List (List Char)) (col : List ReactionData) (ev : List Event)
    (h1 : cur ∉ seen) (h2 : fetch cur = none) :
    scrapeLoop fetch doi tsOf (fuel + 1) (some cur) seen col ev
      = ⟨col, ev ++ [Event.fetchFailed cur], StopReason.fetchFail⟩ := by
  simp [scrapeLoop, h1, h2]

/-- C9, witness: a failing fetch stops a concrete run state, keeping the one
previously collected record intact and adding nothing. -/
theorem claimC9_witness :
    scrapeLoop (fun _ => none) ['d'] (fun _ => []) 5 (some ['u']) []
        [⟨['s'], [], [], [['p']], [], []⟩] []
      = ⟨[⟨['s'], [], [], [['p']], [], []⟩], [] ++ [Event.fetchFailed ['u']],
         StopReason.fetchFail⟩ :=
  claimC9_thm (fun _ => none) ['d'] (fun _ => []) 4 ['u'] []
    [⟨['s'], [], [], [['p']], [], []⟩] [] (by decide) rfl

/-- C2, witness for the amended theorem: instantiated at `"ab"` (no `>`,
returns nothing) via the right-to-left direction. -/
theorem claimC2_witness : parse_smiles_string "ab".toList = none :=
  (claimC2_amended "ab".toList).mpr (by decide)
